import Mathlib

/-!
Verification of the glypy `CComposition` / `CountTable` core
(`src/glypy/composition/ccomposition.pyx`, `glypy/_c/count_table.pyx`).

A `CComposition` is a Python `dict` subclass mapping element/isotope label
strings to signed integer counts.  We model a dict state as an association
list in insertion order whose keys are pairwise distinct (`NodupKeys`);
`dictGet?`, `dictSet` and `dictDel` model `PyDict_GetItem`, `PyDict_SetItem`
and `PyDict_DelItem` on such a state.
-/

namespace Glypy

/-- A Python `dict` with `str` keys and `int` values, in insertion order. -/
abbrev Dict := List (String × Int)

/-- `PyDict_GetItem`: the binding of `k`, `none` when the key is absent. -/
def dictGet? : Dict → String → Option Int
  | [], _ => none
  | kv :: t, k => if kv.1 = k then some kv.2 else dictGet? t k

/-- `CComposition.getitem`: the count of `k`, defaulting to 0 when absent
(`PyDict_GetItem` returning `NULL` yields 0). -/
def getitem (d : Dict) (k : String) : Int :=
  (dictGet? d k).getD 0

/-- `PyDict_SetItem`: replace the binding of `k` in place, else append. -/
def dictSet : Dict → String → Int → Dict
  | [], k, v => [(k, v)]
  | kv :: t, k, v => if kv.1 = k then (k, v) :: t else kv :: dictSet t k v

/-- `PyDict_DelItem`, total form: drops the binding of `k` when present
(the callers modelled below only ever delete keys that are present). -/
def dictDel : Dict → String → Dict
  | [], _ => []
  | kv :: t, k => if kv.1 = k then t else kv :: dictDel t k

/-- The key list of a dict state, in insertion order. -/
def keys (d : Dict) : List String := d.map (·.1)

/-- `key in self`. -/
def hasKey (d : Dict) (k : String) : Bool := (dictGet? d k).isSome

/-- Well-formedness of a dict state: keys are pairwise distinct.  Every
state actually reachable through the Python dict API satisfies this. -/
def NodupKeys (d : Dict) : Prop := (keys d).Nodup

instance (d : Dict) : Decidable (NodupKeys d) := by
  unfold NodupKeys; infer_instance

/-- The set of (key, value) pairs of `d` whose value is nonzero. -/
def nonzeroPairs (d : Dict) : List (String × Int) := d.filter (fun kv => kv.2 != 0)

/-- No stored count is zero — the sparse-representation invariant the spec
asserts for `Composition`. -/
def NoZeros (d : Dict) : Prop := ∀ kv ∈ d, kv.2 ≠ 0

instance (d : Dict) : Decidable (NoZeros d) := by
  unfold NoZeros; infer_instance

/-- Python 3 `round` on an exact numeric value: round half to even. -/
def pyRound (q : ℚ) : Int :=
  let f := ⌊q⌋
  let r := q - f
  if r < 1/2 then f
  else if 1/2 < r then f + 1
  else if f % 2 = 0 then f else f + 1

/-- `CComposition.__setitem__`: `int_value = PyInt_AsLong(round(value))`;
store `int_value` when nonzero, else delete the key (no-op when absent). -/
def setitemPy (d : Dict) (k : String) (v : ℚ) : Dict :=
  let int_value := pyRound v
  if int_value ≠ 0 then dictSet d k int_value
  else if hasKey d k then dictDel d k
  else d

/-- `CComposition.__setitem__` restricted to integer values (for which
`round` is the identity); this is the `self[key] += n` path used by the
formula parsers. -/
def setitemPyInt (d : Dict) (k : String) (v : Int) : Dict :=
  if v ≠ 0 then dictSet d k v
  else if hasKey d k then dictDel d k
  else d

/-- `self[key] += n` on a `CComposition`: read through `__missing__`
(absent key reads 0), write through `__setitem__`. -/
def incKey (d : Dict) (k : String) (n : Int) : Dict :=
  setitemPyInt d k (getitem d k + n)

/-- `CComposition.add_from`: fold every binding of `other` into `self`
with the raw `setitem` (`cnt + value`, no zero suppression). -/
def add_from (self other : Dict) : Dict :=
  other.foldl (fun acc kv => dictSet acc kv.1 (getitem acc kv.1 + kv.2)) self

/-- `CComposition.__add__`: copy `self` (`CComposition._create`), then
`add_from other`. -/
def compAdd (a b : Dict) : Dict := add_from a b

/-- `CComposition.subtract_from` / `__sub__`. -/
def compSub (a b : Dict) : Dict :=
  b.foldl (fun acc kv => dictSet acc kv.1 (getitem acc kv.1 - kv.2)) a

/-- `CComposition.__mul__` with an integer `rep`: raw `setitem` of each
scaled count into a fresh dict, in iteration order. -/
def compMul (d : Dict) (rep : Int) : Dict :=
  d.foldl (fun acc kv => dictSet acc kv.1 (kv.2 * rep)) []

/-- `CComposition.__eq__`: when the right operand has strictly more stored
entries, compare along its keys, otherwise along the left operand's keys;
an absent key on the far side reads as 0. -/
def ccompEq (self other : Dict) : Bool :=
  if other.length > self.length then
    other.all (fun kv => getitem self kv.1 == kv.2)
  else
    self.all (fun kv => getitem other kv.1 == kv.2)

/-! ## Mass calculation (`calculate_mass`, `CComposition.calc_mass`)

The mass-data table is the `mass_data` argument of the source functions
(`nist_mass` being only its default value): an element symbol maps to a
dict from isotope number to a `(mass, abundance)` tuple.  Masses are
modelled as exact rationals; the structure of the computation (which is
what the claims are about) is unchanged. -/

/-- One element's isotope table: isotope number ↦ (mass, abundance). -/
abbrev IsoTable := List (Int × ℚ × ℚ)

/-- A mass-data table: element symbol ↦ isotope table. -/
abbrev MassData := List (String × IsoTable)

/-- `PyDict_GetItem` on a mass-data table. -/
def mdGet? : MassData → String → Option IsoTable
  | [], _ => none
  | kv :: t, k => if kv.1 = k then some kv.2 else mdGet? t k

/-- `PyDict_GetItem` on an isotope table. -/
def isoGet? : IsoTable → Int → Option (ℚ × ℚ)
  | [], _ => none
  | kv :: t, k => if kv.1 = k then some kv.2 else isoGet? t k

/-- The character loop of `_parse_isotope_string`: split `Symbol[N]` into
name characters and bracketed number characters (stopping at `]`). -/
def parseIsotopeLoop : List Char → Bool → List Char → List Char → List Char × List Char
  | [], _, names, nums => (names, nums)
  | c :: rest, inBracket, names, nums =>
    if inBracket then
      if c = ']' then (names, nums)
      else parseIsotopeLoop rest inBracket names (nums ++ [c])
    else if c = '[' then parseIsotopeLoop rest true names nums
    else parseIsotopeLoop rest inBracket (names ++ [c]) nums

/-- The value of a string of decimal digits. -/
def digitsVal (cs : List Char) : Nat :=
  cs.foldl (fun n c => n * 10 + (c.toNat - 48)) 0

/-- Python `int()` on a digit string: `none` models the `ValueError` on an
empty or non-digit string. -/
def digitsToNat? (cs : List Char) : Option Nat :=
  if cs ≠ [] ∧ cs.all Char.isDigit then some (digitsVal cs)
  else none

/-- Python `int()` on a possibly sign-prefixed integer literal. -/
def pyInt? (cs : List Char) : Option Int :=
  match cs with
  | '-' :: rest => (digitsToNat? rest).map (fun n => -(n : Int))
  | '+' :: rest => (digitsToNat? rest).map (fun n => (n : Int))
  | _ => (digitsToNat? cs).map (fun n => (n : Int))

/-- `_parse_isotope_string`: a label into (element name, isotope number);
`none` models the `ValueError` from `int()` on malformed bracket contents. -/
def parse_isotope_string (label : String) : Option (String × Int) :=
  let (names, nums) := parseIsotopeLoop label.toList false [] []
  match nums with
  | [] => some (String.mk names, 0)
  | _ => (pyInt? nums).map (fun n => (String.mk names, n))

/-- `_make_isotope_string` (`'%s[%d]'`). -/
def make_isotope_string (element_name : String) (isotope_num : Int) : String :=
  if isotope_num = 0 then element_name
  else element_name ++ "[" ++ toString isotope_num ++ "]"

/-- The exceptions `calculate_mass` can produce.  `chemError` is the
`ChemicalCompositionError` raise; `keyError` is the plain Python `KeyError`
from `mass_provider[element_name]` in the average branch; `nullDeref`
marks the unchecked `PyDict_GetItem` result being dereferenced in the
monoisotopic branch — undefined behavior, not a Python exception;
`valueError` is `int()` failing on a malformed isotope label. -/
inductive MassErr
  | chemError
  | keyError
  | nullDeref
  | valueError
deriving DecidableEq, Repr

/-- Whether a call returned normally (`.ok`), without reference to the
returned value. -/
def isOkB : Except ε α → Bool
  | .ok _ => true
  | .error _ => false

/-- One iteration of the mass accumulation loop of `calculate_mass` for the
key `isotope_string`. -/
def massStep (d : Dict) (average : Bool) (md : MassData) (acc : ℚ)
    (isotope_string : String) : Except MassErr ℚ :=
  match parse_isotope_string isotope_string with
  | none => .error .valueError
  | some (element_name, isotope_num) =>
    if isotope_num = 0 ∧ average then
      match mdGet? md element_name with
      | none => .error .keyError
      | some isotab =>
        .ok (isotab.foldl
          (fun m ent =>
            if ent.1 ≠ 0 then
              m + (getitem d element_name : ℚ) * ent.2.1 * ent.2.2
            else m)
          acc)
    else
      match mdGet? md element_name with
      | none => .error .nullDeref
      | some isotab =>
        match isoGet? isotab isotope_num with
        | none => .error .nullDeref
        | some entry => .ok (acc + (getitem d isotope_string : ℚ) * entry.1)

/-- The mass accumulation loop of `calculate_mass` over the key list. -/
def massLoop (d : Dict) (average : Bool) (md : MassData) :
    List String → ℚ → Except MassErr ℚ
  | [], acc => .ok acc
  | k :: rest, acc =>
    match massStep d average md acc k with
    | .error e => .error e
    | .ok acc' => massLoop d average md rest acc'

/-- The body of `calculate_mass` after the charge has been resolved to `z`:
set `H+` to `z`, accumulate, divide by `abs(charge)` when nonzero, restore
`H+`.  Returns the result together with the composition's final dict state;
when the loop raises, the dict is left as it was at the raise point. -/
def calcCore (c : Dict) (average : Bool) (z : Int) (md : MassData) :
    Except MassErr ℚ × Dict :=
  let old_charge := getitem c "H+"
  let d := dictSet c "H+" z
  match massLoop d average md (keys d) 0 with
  | .error e => (.error e, d)
  | .ok mass =>
    let mass := if z ≠ 0 then mass / (|z| : ℚ) else mass
    if old_charge ≠ 0 then (.ok mass, dictSet d "H+" old_charge)
    else (.ok mass, dictDel d "H+")

/-- The charge `calculate_mass` resolves: the explicit argument when given,
else the composition's `H+` count. -/
def resolvedCharge (c : Dict) (charge? : Option Int) : Int :=
  match charge? with
  | none => getitem c "H+"
  | some ch => ch

/-- `calculate_mass` on a composition (the `composition=` path of the
source function), with the final dict state. -/
def calculate_mass (c : Dict) (average : Bool) (charge? : Option Int)
    (md : MassData) : Except MassErr ℚ × Dict :=
  match charge? with
  | none => calcCore c average (getitem c "H+") md
  | some ch =>
    if ch ≠ 0 ∧ getitem c "H+" ≠ 0 then (.error .chemError, c)
    else calcCore c average ch md

/-! ## The memoising wrapper `CComposition.calc_mass` -/

/-- The attributes of a `CComposition` instance that `calc_mass` uses:
the dict contents, `_mass`, and `_mass_args = (average, charge, id(mass_data))`. -/
structure CState where
  data : Dict
  mass_val : Option ℚ
  mass_args : Option (Bool × Option Int × Nat)
deriving DecidableEq, Repr

/-- `CComposition.setitem`: `PyDict_SetItem` plus `self._mass_args = None`. -/
def CState.setitem (s : CState) (k : String) (v : Int) : CState :=
  { s with data := dictSet s.data k v, mass_args := none }

/-- `calcCore` at the instance level: the two `composition.setitem` calls
go through `CState.setitem` (and therefore clear `_mass_args`), while the
raw `PyDict_DelItem` on the restore path touches only the dict. -/
def calcCoreC (s : CState) (average : Bool) (z : Int) (md : MassData) :
    Except MassErr ℚ × CState :=
  let old_charge := getitem s.data "H+"
  let s1 := s.setitem "H+" z
  match massLoop s1.data average md (keys s1.data) 0 with
  | .error e => (.error e, s1)
  | .ok mass =>
    let mass := if z ≠ 0 then mass / (|z| : ℚ) else mass
    if old_charge ≠ 0 then (.ok mass, s1.setitem "H+" old_charge)
    else (.ok mass, { s1 with data := dictDel s1.data "H+" })

/-- `calculate_mass` at the instance level. -/
def calculate_massC (s : CState) (average : Bool) (charge? : Option Int)
    (md : MassData) : Except MassErr ℚ × CState :=
  match charge? with
  | none => calcCoreC s average (getitem s.data "H+") md
  | some ch =>
    if ch ≠ 0 ∧ getitem s.data "H+" ≠ 0 then (.error .chemError, s)
    else calcCoreC s average ch md

/-- `CComposition.calc_mass`: serve `_mass` when `_mass_args` equals the
`(average, charge, id(mass_data))` triple of this call, else store the
triple and recompute.  The final `Bool` reports whether the cached value
was served (in cached states `_mass` is always set; `getD 0` is never
reached with a `none`). -/
def calc_mass (s : CState) (average : Bool) (charge? : Option Int)
    (md : MassData) (mdid : Nat) : Except MassErr ℚ × CState × Bool :=
  if s.mass_args = some (average, charge?, mdid) then
    (.ok (s.mass_val.getD 0), s, true)
  else
    let s1 : CState := { s with mass_args := some (average, charge?, mdid) }
    match calculate_massC s1 average charge? md with
    | (.error e, s2) => (.error e, s2, false)
    | (.ok m, s2) => (.ok m, { s2 with mass_val := some m }, false)

/-! ## Formula parsing (`_from_formula`, `_from_formula_parens`)

The flat path validates against `formula_pattern` (the anchored repetition
of `_atom = ([A-Z][a-z+]*)(?:\[(\d+)\])?([+-]?\d+)?`) and accumulates the
atoms `re.findall` produces; `scanAtom` is a direct matcher for `_atom`
(element: one uppercase letter then lowercase letters or `+`; optional
`[digits]` isotope; optional signed count whose sign must be followed by a
digit). -/

/-- The `ChemicalCompositionError` cases the construction paths raise.
`pyValueError` is an uncaught Python `ValueError` (`int()` on the group
coefficient); `outOfFuel` is an artefact of the bounded embedding of the
right-to-left parser and is never reached with the fuel the wrappers pass. -/
inductive FormulaErr
  | invalidFormula
  | unknownElement
  | badNumber
  | badIsotope
  | pyValueError
  | couldNotCreate
  | outOfFuel
deriving DecidableEq, Repr

/-- One match of `_atom` at the head of the character list:
(element, isotope, count, rest); `none` when no atom starts here. -/
def scanAtom : List Char → Option (String × Option Int × Option Int × List Char)
  | [] => none
  | c :: rest =>
    if c.isUpper then
      let p1 := rest.span (fun d => d.isLower || d = '+')
      let elem := String.mk (c :: p1.1)
      let isoP : Option Int × List Char :=
        match p1.2 with
        | '[' :: r =>
          match r.span Char.isDigit with
          | (ds, ']' :: r') =>
            if ds.isEmpty then (none, p1.2) else (some (digitsVal ds : Int), r')
          | _ => (none, p1.2)
        | _ => (none, p1.2)
      let cntP : Option Int × List Char :=
        match isoP.2 with
        | '+' :: r =>
          match r.span Char.isDigit with
          | ([], _) => (none, isoP.2)
          | (ds, r') => (some (digitsVal ds : Int), r')
        | '-' :: r =>
          match r.span Char.isDigit with
          | ([], _) => (none, isoP.2)
          | (ds, r') => (some (-(digitsVal ds : Int)), r')
        | other =>
          match other.span Char.isDigit with
          | ([], _) => (none, isoP.2)
          | (ds, r') => (some (digitsVal ds : Int), r')
      some (elem, isoP.1, cntP.1, cntP.2)
    else none

/-- `formula_pattern.match` plus `re.findall(_atom, ...)` on a flat
formula: the partition of the string into atom matches, `none` when the
string is not a concatenation of atoms. -/
def scanAtomsFuel : Nat → List Char → Option (List (String × Option Int × Option Int))
  | _, [] => some []
  | 0, _ :: _ => none
  | fuel+1, cs =>
    match scanAtom cs with
    | none => none
    | some (e, iso, cnt, rest) =>
      (scanAtomsFuel fuel rest).map (fun l => (e, iso, cnt) :: l)

/-- The flat (no-parenthesis) branch of `_from_formula`: omitted count is 1,
omitted isotope is 0, unknown element symbols raise, accumulation goes
through `self[...] += n`. -/
def from_formula_flat (d : Dict) (formula : String) (md : MassData) :
    Except FormulaErr Dict :=
  match scanAtomsFuel (formula.length + 1) formula.toList with
  | none => .error .invalidFormula
  | some atoms =>
    atoms.foldlM
      (fun acc atom =>
        if (mdGet? md atom.1).isNone then .error .unknownElement
        else .ok (incKey acc (make_isotope_string atom.1 (atom.2.1.getD 0))
          (atom.2.2.getD 1)))
      d

/-- Python slice `cs[a:b]` for non-negative bounds. -/
def pySlice (cs : List Char) (a b : Nat) : List Char := (cs.drop a).take (b - a)

/-- `formula[i]` with Python's negative-index wraparound (the seek branch
of `_from_formula_parens` reads `formula[i]` after decrementing `i`, which
can be `-1`).  Out-of-range reads return `' '`; they correspond to inputs
on which CPython would raise `IndexError` and are not exercised here. -/
def pyGet (cs : List Char) (i : Int) : Char :=
  if i < 0 then cs.getD (cs.length - (-i).toNat) ' '
  else cs.getD i.toNat ' '

/-- `str.rfind('[', 0, i)`: the largest index `< i` holding `'['`. -/
def rfindBefore (cs : List Char) (c : Char) (i : Nat) : Option Nat :=
  (((cs.take i).enum.filter (fun p => p.2 == c)).getLast?).map (·.1)

/-- Insert keeping a by-length descending order. -/
def insertByLen (s : String) : List String → List String
  | [] => [s]
  | t :: rest =>
    if s.length > t.length then s :: t :: rest else t :: insertByLen s rest

/-- `sorted(mass_data, key=len, reverse=True)`: the element symbols sorted
longest first (two distinct symbols of equal length can never both be
suffixes of the same prefix, so any order within one length is equivalent). -/
def sortByLenDesc : List String → List String
  | [] => []
  | s :: rest => insertByLen s (sortByLenDesc rest)

/-- The loop state of `_from_formula_parens`. -/
structure ParensState where
  i : Int
  prev : Nat
  seek : Int
  stack : List Char
  resolve : List Dict
  coef : Int
  self : Dict
deriving Repr

/-- The `while i >= 0` loop of `_from_formula_parens`.  `ff` is the
recursive `Composition(formula=..., mass_data=mass_data)` call used to
resolve a parenthesised group.  Every iteration decreases `i`, so the
fuel `len(formula) + 1` the wrapper passes always suffices. -/
def parensLoopF (ff : String → Except FormulaErr Dict) (md : MassData)
    (cs : List Char) : Nat → ParensState → Except FormulaErr ParensState
  | 0, _ => .error .outOfFuel
  | loopFuel+1, st =>
    if st.i < 0 then .ok st
    else
      let i := st.i.toNat
      if st.seek < 1 then
        let c := cs.getD i ' '
        if c = ')' then
          let coef? : Option Int :=
            if i + 1 = st.prev then some 1
            else if (cs.getD (i+1) ' ').isDigit then pyInt? (pySlice cs (i+1) st.prev)
            else some st.coef
          match coef? with
          | none => .error .pyValueError
          | some gc =>
            parensLoopF ff md cs loopFuel
              { st with i := st.i - 1, seek := st.seek + 1, coef := gc }
        else if c.isDigit ∨ c = '-' then
          parensLoopF ff md cs loopFuel { st with i := st.i - 1 }
        else
          let num? : Except FormulaErr Int :=
            if i + 1 = st.prev then .ok 1
            else
              match pyInt? (pySlice cs (i+1) st.prev) with
              | none => .error .badNumber
              | some n => .ok n
          match num? with
          | .error e => .error e
          | .ok num_atoms =>
            let isoi? : Except FormulaErr (Int × Int) :=
              if c = ']' then
                match rfindBefore cs '[' i with
                | none => .error .badIsotope
                | some bp =>
                  match pyInt? (pySlice cs (bp+1) i) with
                  | none => .error .badIsotope
                  | some n => .ok (n, (bp : Int) - 1)
              else .ok (0, st.i)
            match isoi? with
            | .error e => .error e
            | .ok (isotope_num, i2) =>
              let endPos := (i2 + 1).toNat
              match (sortByLenDesc (md.map (·.1))).find?
                  (fun ename => ename.toList.isSuffixOf (cs.take endPos)) with
              | none => .error .unknownElement
              | some ename =>
                let i3 := i2 - (ename.length : Int)
                parensLoopF ff md cs loopFuel
                  { st with i := i3, prev := (i3 + 1).toNat,
                            self := incKey st.self
                              (make_isotope_string ename isotope_num) num_atoms }
      else
        let ch := cs.getD i ' '
        let stack' := st.stack ++ [ch]
        let i' := st.i - 1
        if ch = '(' then
          let seek' := st.seek - 1
          if seek' = 0 then
            match ff (String.mk stack'.dropLast.reverse) with
            | .error e => .error e
            | .ok subComp =>
              parensLoopF ff md cs loopFuel
                { st with i := i', prev := (i' + 1).toNat, seek := 0, stack := [],
                          resolve := st.resolve ++ [compMul subComp st.coef] }
          else
            parensLoopF ff md cs loopFuel { st with i := i', seek := seek', stack := stack' }
        else if pyGet cs i' = ')' then
          parensLoopF ff md cs loopFuel { st with i := i', seek := st.seek + 1, stack := stack' }
        else
          parensLoopF ff md cs loopFuel { st with i := i', stack := stack' }

/-- `CComposition._from_formula`: dispatch to the backward parenthesis
parser when the formula contains `'('`, else to the flat path.  `fuel`
bounds the recursion depth of nested `Composition(formula=...)` calls;
each level strips at least one character, so `length + 1` suffices. -/
def from_formula : Nat → String → MassData → Dict → Except FormulaErr Dict
  | 0, _, _, _ => .error .outOfFuel
  | fuel+1, formula, md, d =>
    if '(' ∈ formula.toList then
      let cs := formula.toList
      let st0 : ParensState := ⟨(cs.length : Int) - 1, cs.length, 0, [], [], 1, d⟩
      match parensLoopF (fun f => from_formula fuel f md []) md cs (cs.length + 1) st0 with
      | .error e => .error e
      | .ok st =>
        .ok (st.resolve.foldl
          (fun acc chunk => chunk.foldl (fun a kv => incKey a kv.1 kv.2) acc)
          st.self)
    else from_formula_flat d formula md

/-- `_from_formula` with enough fuel, starting from an empty composition. -/
def fromFormula (formula : String) (md : MassData) : Except FormulaErr Dict :=
  from_formula (formula.length + 1) formula md []

/-! ## `CComposition.__init__` -/

/-- The first positional argument of `CComposition.__init__`. -/
inductive InitArg
  | dict (d : Dict)
  | str (s : String)

/-- Python truthiness of the `args` parameter. -/
def argTruthy : Option InitArg → Bool
  | none => false
  | some (.dict d) => !d.isEmpty
  | some (.str s) => !s.isEmpty

/-- `CComposition.__init__(args, formula, mass_data, **kwargs)`: a given
`formula` is parsed first and any positional mapping/string is then never
consulted; otherwise a truthy `args` is used (`_from_dict` for a mapping —
re-raising `'Could not create...'` for a string that fails to parse);
otherwise the keyword arguments are taken as the mapping. -/
def CComposition_init (args : Option InitArg) (formula : Option String)
    (md : MassData) (kwargs : Dict) : Except FormulaErr Dict :=
  match formula with
  | some f => from_formula (f.length + 1) f md []
  | none =>
    if argTruthy args then
      match args with
      | some (.dict d) => .ok d
      | some (.str s) =>
        match from_formula (s.length + 1) s md [] with
        | .error _ => .error .couldNotCreate
        | .ok d => .ok d
      | none => .ok kwargs
    else .ok kwargs

/-! ## `CountTable` (`glypy/_c/count_table.pyx`)

A `count_table` is a fixed list of bins; each bin is a linear array of
cells whose `key` slot is `NULL` (`none`) when the cell is empty.  The
bin of a key is `hash(key) % table.size`; `binFindCell`, `binPut` and
`binDel` are the linear-scan `count_table_bin_find` combined with the
actions `count_table_put` / `count_table_del` perform on the found cell
(set value in place / blank the cell returning the old value / append). -/

/-- A `count_table_bin_cell`. -/
structure Cell (κ : Type) where
  key : Option κ
  value : Int
deriving DecidableEq, Repr

/-- A `count_table_bin` (the capacity bookkeeping is invisible here). -/
abbrev Bin (κ : Type) := List (Cell κ)

/-- `count_table_bin_find` fused with reading the found cell. -/
def binFindCell [DecidableEq κ] : Bin κ → κ → Option (Cell κ)
  | [], _ => none
  | c :: rest, k => if c.key = some k then some c else binFindCell rest k

/-- `count_table_put` on one bin: overwrite the found cell's value, else
`count_table_bin_append`. -/
def binPut [DecidableEq κ] : Bin κ → κ → Int → Bin κ
  | [], k, v => [⟨some k, v⟩]
  | c :: rest, k, v =>
    if c.key = some k then ⟨some k, v⟩ :: rest else c :: binPut rest k v

/-- `count_table_del` on one bin: blank the found cell (key `NULL`,
value 0) and return its previous value, else return 0. -/
def binDel [DecidableEq κ] : Bin κ → κ → Int × Bin κ
  | [], _ => (0, [])
  | c :: rest, k =>
    if c.key = some k then (c.value, ⟨none, 0⟩ :: rest)
    else
      let p := binDel rest k
      (p.1, c :: p.2)

/-- A `count_table`: the hash function together with the bins. -/
structure CountTableT (κ : Type) where
  hash : κ → Nat
  bins : List (Bin κ)

/-- `hash(key) % table.size`. -/
def binIndex (t : CountTableT κ) (k : κ) : Nat := t.hash k % t.bins.length

/-- `count_table_get`: 0 when the key is absent (`status` stays 0). -/
def count_table_get [DecidableEq κ] (t : CountTableT κ) (k : κ) : Int :=
  match t.bins[binIndex t k]? with
  | none => 0
  | some bin =>
    match binFindCell bin k with
    | none => 0
    | some c => c.value

/-- `count_table_put`. -/
def count_table_put [DecidableEq κ] (t : CountTableT κ) (k : κ) (v : Int) :
    CountTableT κ :=
  match t.bins[binIndex t k]? with
  | none => t
  | some bin => { t with bins := t.bins.set (binIndex t k) (binPut bin k v) }

/-- `count_table_del`: the previous value (0 when absent) and the new table. -/
def count_table_del [DecidableEq κ] (t : CountTableT κ) (k : κ) :
    Int × CountTableT κ :=
  match t.bins[binIndex t k]? with
  | none => (0, t)
  | some bin =>
    let p := binDel bin k
    (p.1, { t with bins := t.bins.set (binIndex t k) p.2 })

/-- `CountTable.__init__` with no argument: `make_count_table(6, 2)` —
six bins, all empty. -/
def mkCountTable (κ : Type) (hash : κ → Nat) : CountTableT κ :=
  ⟨hash, List.replicate 6 []⟩

/-- `CountTable.getitem` / `__getitem__`: an absent key reads 0. -/
def ctGetitem [DecidableEq κ] (t : CountTableT κ) (k : κ) : Int :=
  count_table_get t k

/-- `CountTable.get(key, default=None)`: the stored value when nonzero,
else the `default` object (`none` models Python `None`). -/
def ctGet [DecidableEq κ] (t : CountTableT κ) (k : κ) (default : Option Int) :
    Option Int :=
  let v := ctGetitem t k
  if v = 0 then default else some v

/-- `CountTable.pop(key, default=None)`: `cpdef long pop` — when the
deleted value is 0 the code returns `default`, and coercing the `None`
default to the declared `long` return type raises `TypeError`
(modelled `.error ()`). -/
def ctPop [DecidableEq κ] (t : CountTableT κ) (k : κ) (default : Option Int) :
    (Except Unit Int) × CountTableT κ :=
  let p := count_table_del t k
  if p.1 = 0 then
    ((match default with
      | none => .error ()
      | some dv => .ok dv), p.2)
  else (.ok p.1, p.2)

/-- No cell of any bin holds the key `k`. -/
def CtAbsent (t : CountTableT κ) (k : κ) : Prop :=
  ∀ bin ∈ t.bins, ∀ c ∈ bin, c.key ≠ some k

instance [DecidableEq κ] (t : CountTableT κ) (k : κ) : Decidable (CtAbsent t k) := by
  unfold CtAbsent; infer_instance

/-! ## Concrete instances used by the closed theorems below

`mdTest` is a small mass-data table standing in the `mass_data` parameter
position (the source's `nist_mass` is only the default argument); its
numeric values are immaterial to the structural claims checked on it. -/

/-- A small mass-data table with the element symbols the examples use. -/
def mdTest : MassData :=
  [ ("H",  [(0, (1, 1))]),
    ("H+", [(0, (1, 1))]),
    ("C",  [(0, (12, 1))]),
    ("O",  [(0, (16, 1))]) ]

/-- `{"H": 2, "O": 1}`. -/
def dWater : Dict := [("H", 2), ("O", 1)]

/-- The same content as `dWater`, stored in the opposite insertion order. -/
def dWaterRev : Dict := [("O", 1), ("H", 2)]

/-- `{"H+": 2}`. -/
def dProtonated : Dict := [("H+", 2)]

/-- A composition built from a mapping with a key unknown to the table. -/
def dUnknown : Dict := [("Zz", 1)]

/-- A fresh `CComposition` instance state holding `{"H": 2, "O": 1}`. -/
def sWater : CState := ⟨dWater, none, none⟩

/-- A `CountTable` over string keys (hash stands in for `PyObject_Hash`). -/
def ctFe : CountTableT String := count_table_put (mkCountTable String String.length) "Fe" 3

section DictLemmas

theorem getitem_dictSet_self (d : Dict) (k : String) (v : Int) :
    getitem (dictSet d k v) k = v := by
  induction d with
  | nil => simp [dictSet, getitem, dictGet?]
  | cons kv t ih =>
    by_cases h : kv.1 = k
    · simp [dictSet, h, getitem, dictGet?]
    · simp [dictSet, h, getitem, dictGet?] at ih ⊢
      exact ih

theorem dictGet?_eq_none_of_not_mem_keys (d : Dict) (k : String)
    (h : k ∉ keys d) : dictGet? d k = none := by
  induction d with
  | nil => simp [dictGet?]
  | cons kv t ih =>
    have h1 : kv.1 ≠ k := by
      intro hh; exact h (by simp [keys, hh])
    simp only [dictGet?, if_neg h1]
    exact ih (fun hm => h (by simp [keys] at hm ⊢; right; exact hm))

theorem dictGet?_dictSet_ne (d : Dict) (k k' : String) (v : Int) (h : k' ≠ k) :
    dictGet? (dictSet d k v) k' = dictGet? d k' := by
  induction d with
  | nil => simp [dictSet, dictGet?, h.symm]
  | cons kv t ih =>
    by_cases hk : kv.1 = k
    · subst hk
      simp [dictSet, dictGet?, h.symm]
    · simp [dictSet, hk, dictGet?, ih]

theorem hasKey_dictSet_self (d : Dict) (k : String) (v : Int) :
    hasKey (dictSet d k v) k = true := by
  induction d with
  | nil => simp [dictSet, hasKey, dictGet?]
  | cons kv t ih =>
    by_cases h : kv.1 = k
    · simp [dictSet, h, hasKey, dictGet?]
    · simp [dictSet, h, hasKey, dictGet?] at ih ⊢
      exact ih

theorem dictGet?_dictDel_self (d : Dict) (k : String) (hd : NodupKeys d) :
    dictGet? (dictDel d k) k = none := by
  induction d with
  | nil => simp [dictDel, dictGet?]
  | cons kv t ih =>
    have hd' : NodupKeys t := (List.nodup_cons.mp hd).2
    by_cases h : kv.1 = k
    · subst h
      have hnot : kv.1 ∉ keys t := by
        intro hm
        exact (List.nodup_cons.mp hd).1 hm
      simp only [dictDel, if_pos rfl]
      exact dictGet?_eq_none_of_not_mem_keys t kv.1 hnot
    · simp [dictDel, h, dictGet?, ih hd']

theorem dictGet?_dictDel_ne (d : Dict) (k k' : String) (h : k' ≠ k) :
    dictGet? (dictDel d k) k' = dictGet? d k' := by
  induction d with
  | nil => simp [dictDel]
  | cons kv t ih =>
    by_cases hk : kv.1 = k
    · subst hk
      simp [dictDel, dictGet?, h.symm]
    · simp [dictDel, hk, dictGet?, ih]

theorem mem_dictSet (d : Dict) (k : String) (v : Int) (kv : String × Int)
    (h : kv ∈ dictSet d k v) : kv ∈ d ∨ kv = (k, v) := by
  induction d with
  | nil => simp [dictSet] at h; right; exact h
  | cons kv' t ih =>
    by_cases hk : kv'.1 = k
    · simp [dictSet, hk] at h
      rcases h with h | h
      · right; exact h
      · left; simp [h]
    · simp [dictSet, hk] at h
      rcases h with h | h
      · left; simp [h]
      · rcases ih h with h' | h'
        · left; simp [h']
        · right; exact h'

theorem mem_dictDel (d : Dict) (k : String) (kv : String × Int)
    (h : kv ∈ dictDel d k) : kv ∈ d := by
  induction d with
  | nil => simp [dictDel] at h
  | cons kv' t ih =>
    by_cases hk : kv'.1 = k
    · simp [dictDel, hk] at h
      simp [h]
    · simp [dictDel, hk] at h
      rcases h with h | h
      · simp [h]
      · simp [ih h]

theorem getitem_of_mem (d : Dict) (kv : String × Int)
    (hm : kv ∈ d) (hd : NodupKeys d) : getitem d kv.1 = kv.2 := by
  induction d with
  | nil => simp at hm
  | cons kv' t ih =>
    rcases List.mem_cons.mp hm with h | h
    · subst h
      simp [getitem, dictGet?]
    · have h1 : kv'.1 ≠ kv.1 := by
        intro hh
        exact (List.nodup_cons.mp hd).1 (by
          have hm : kv.1 ∈ keys t := List.mem_map_of_mem (·.1) h
          show kv'.1 ∈ keys t
          rw [hh]; exact hm)
      simp only [getitem, dictGet?, if_neg h1]
      exact ih h (List.nodup_cons.mp hd).2

theorem mem_of_getitem_ne_zero (d : Dict) (k : String)
    (h : getitem d k ≠ 0) : (k, getitem d k) ∈ d := by
  induction d with
  | nil => simp [getitem, dictGet?] at h
  | cons kv t ih =>
    by_cases hk : kv.1 = k
    · subst hk
      simp [getitem, dictGet?]
    · simp only [getitem, dictGet?, if_neg hk] at h ⊢
      exact List.mem_cons_of_mem _ (ih h)

theorem getitem_eq_zero_of_not_mem_keys (d : Dict) (k : String)
    (h : k ∉ keys d) : getitem d k = 0 := by
  induction d with
  | nil => simp [getitem, dictGet?]
  | cons kv t ih =>
    have h1 : kv.1 ≠ k := by
      intro hh; exact h (by simp [keys, hh])
    simp only [getitem, dictGet?, if_neg h1]
    exact ih (fun hm => h (by simp [keys] at hm ⊢; right; exact hm))

theorem mem_keys_of_getitem_ne_zero (d : Dict) (k : String)
    (h : getitem d k ≠ 0) : k ∈ keys d := by
  by_contra hc
  exact h (getitem_eq_zero_of_not_mem_keys d k hc)

theorem dictGet?_eq_some_of_getitem_ne_zero (d : Dict) (k : String)
    (h : getitem d k ≠ 0) : dictGet? d k = some (getitem d k) := by
  unfold getitem at h ⊢
  cases hg : dictGet? d k with
  | none => simp [hg] at h
  | some v => simp [hg]

theorem dictSet_getitem_self (d : Dict) (k : String)
    (h : dictGet? d k = some (getitem d k)) :
    dictSet d k (getitem d k) = d := by
  induction d with
  | nil => simp [dictGet?] at h
  | cons kv t ih =>
    by_cases hk : kv.1 = k
    · subst hk
      simp only [getitem, dictGet?, if_pos rfl] at h ⊢
      simp [dictSet]
    · simp only [getitem, dictGet?, if_neg hk] at h
      simp only [dictSet, if_neg hk, getitem, dictGet?, if_neg hk, List.cons.injEq]
      exact ⟨trivial, ih h⟩

theorem dictSet_dictSet (d : Dict) (k : String) (v w : Int) :
    dictSet (dictSet d k v) k w = dictSet d k w := by
  induction d with
  | nil => simp [dictSet]
  | cons kv t ih =>
    by_cases hk : kv.1 = k
    · simp [dictSet, hk]
    · simp [dictSet, hk, ih]

theorem dictDel_dictSet (d : Dict) (k : String) (v : Int) :
    dictDel (dictSet d k v) k = dictDel d k := by
  induction d with
  | nil => simp [dictSet, dictDel]
  | cons kv t ih =>
    by_cases hk : kv.1 = k
    · simp [dictSet, hk, dictDel]
    · simp [dictSet, hk, dictDel, ih]

theorem dictDel_of_not_hasKey (d : Dict) (k : String)
    (h : hasKey d k = false) : dictDel d k = d := by
  induction d with
  | nil => simp [dictDel]
  | cons kv t ih =>
    by_cases hk : kv.1 = k
    · simp [hasKey, dictGet?, hk] at h
    · simp only [hasKey, dictGet?, if_neg hk] at h
      simp [dictDel, hk, ih h]

end DictLemmas

section EqLemmas

theorem keys_mem_of_all_getitem (a b : Dict) (hz : NoZeros b)
    (hall : ∀ kv ∈ b, getitem a kv.1 = kv.2) :
    ∀ k ∈ keys b, k ∈ keys a := by
  intro k hk
  obtain ⟨kv, hm, rfl⟩ := List.mem_map.mp hk
  exact mem_keys_of_getitem_ne_zero a kv.1 (by rw [hall kv hm]; exact hz kv hm)

theorem card_keys_le (a b : Dict) (ha : NodupKeys a) (hb : NodupKeys b)
    (hsub : ∀ k ∈ keys b, k ∈ keys a) : b.length ≤ a.length := by
  have hcard : (keys b).toFinset.card ≤ (keys a).toFinset.card :=
    Finset.card_le_card
      (fun k hk => List.mem_toFinset.mpr (hsub k (List.mem_toFinset.mp hk)))
  rw [List.toFinset_card_of_nodup ha, List.toFinset_card_of_nodup hb] at hcard
  simpa [keys] using hcard

end EqLemmas

section CountTableLemmas

theorem binFindCell_eq_none [DecidableEq κ] (bin : Bin κ) (k : κ)
    (h : ∀ c ∈ bin, c.key ≠ some k) : binFindCell bin k = none := by
  induction bin with
  | nil => rfl
  | cons c rest ih =>
    rw [binFindCell, if_neg (h c (by simp))]
    exact ih (fun c' hc' => h c' (by simp [hc']))

theorem binDel_fst_of_none [DecidableEq κ] (bin : Bin κ) (k : κ)
    (h : binFindCell bin k = none) : (binDel bin k).1 = 0 := by
  induction bin with
  | nil => rfl
  | cons c rest ih =>
    by_cases hc : c.key = some k
    · rw [binFindCell, if_pos hc] at h
      exact absurd h (by simp)
    · rw [binFindCell, if_neg hc] at h
      simp only [binDel, if_neg hc]
      exact ih h

theorem binDel_fst_of_some [DecidableEq κ] (bin : Bin κ) (k : κ) (c : Cell κ)
    (h : binFindCell bin k = some c) : (binDel bin k).1 = c.value := by
  induction bin with
  | nil => simp [binFindCell] at h
  | cons c' rest ih =>
    by_cases hc : c'.key = some k
    · rw [binFindCell, if_pos hc] at h
      simp only [Option.some.injEq] at h
      subst h
      simp [binDel, hc]
    · rw [binFindCell, if_neg hc] at h
      simp only [binDel, if_neg hc]
      exact ih h

end CountTableLemmas

section MassLemmas

/-- The success branch of `calcCore`: exposes the accumulated total, the
`abs`-division, and the two `H+` restoration outcomes. -/
theorem calcCore_ok (c : Dict) (average : Bool) (z : Int) (md : MassData)
    (m : ℚ) (d' : Dict) (h : calcCore c average z md = (.ok m, d')) :
    (∃ total,
        massLoop (dictSet c "H+" z) average md (keys (dictSet c "H+" z)) 0 = .ok total ∧
        m = if z ≠ 0 then total / (|z| : ℚ) else total) ∧
    (getitem c "H+" ≠ 0 → d' = dictSet (dictSet c "H+" z) "H+" (getitem c "H+")) ∧
    (getitem c "H+" = 0 → d' = dictDel (dictSet c "H+" z) "H+") := by
  simp only [calcCore] at h
  cases hml : massLoop (dictSet c "H+" z) average md (keys (dictSet c "H+" z)) 0 with
  | error e =>
    rw [hml] at h
    exact absurd (congrArg Prod.fst h) (by simp)
  | ok total =>
    simp only [hml] at h
    by_cases hold : getitem c "H+" ≠ 0
    · rw [if_pos hold] at h
      simp only [Prod.mk.injEq, Except.ok.injEq] at h
      obtain ⟨h1, h2⟩ := h
      exact ⟨⟨total, rfl, h1.symm⟩, fun _ => h2.symm, fun h0 => absurd h0 hold⟩
    · rw [if_neg hold] at h
      push_neg at hold
      simp only [Prod.mk.injEq, Except.ok.injEq] at h
      obtain ⟨h1, h2⟩ := h
      exact ⟨⟨total, rfl, h1.symm⟩, fun hne => absurd hold hne, fun _ => h2.symm⟩

/-- A successful `calculate_mass` went through `calcCore` at some charge. -/
theorem calculate_mass_ok_calcCore (c : Dict) (average : Bool)
    (charge? : Option Int) (md : MassData) (m : ℚ) (d' : Dict)
    (h : calculate_mass c average charge? md = (.ok m, d')) :
    calcCore c average (resolvedCharge c charge?) md = (.ok m, d') := by
  cases charge? with
  | none =>
    simp only [calculate_mass] at h
    simpa [resolvedCharge] using h
  | some ch =>
    simp only [calculate_mass] at h
    by_cases hcol : ch ≠ 0 ∧ getitem c "H+" ≠ 0
    · rw [if_pos hcol] at h
      exact absurd (congrArg Prod.fst h) (by simp)
    · rw [if_neg hcol] at h
      simpa [resolvedCharge] using h

/-- A run whose first component is a success is a success at some value
and final state. -/
theorem isOkB_elim {p : Except MassErr ℚ × Dict}
    (h : isOkB p.1 = true) : ∃ m d', p = (.ok m, d') := by
  obtain ⟨fst, snd⟩ := p
  cases fst with
  | ok m => exact ⟨m, snd, rfl⟩
  | error e => simp [isOkB] at h

end MassLemmas

/-! ## The claims -/

/-- C1, counterexample: the claim asserts the original `H+` value is
restored "including on error paths".  Running `calculate_mass` on the
composition `{Zz: 1}` with `charge=3` and `average=True` raises while
accumulating (unknown element), and the composition is left with the
temporary `H+ = 3` entry, whereas it originally had no `H+` at all. -/
theorem calculate_mass_error_leaks_Hplus :
    calculate_mass dUnknown true (some 3) mdTest =
      (.error .keyError, [("Zz", 1), ("H+", 3)]) ∧
    getitem [("Zz", 1), ("H+", 3)] "H+" ≠ getitem dUnknown "H+" :=
  ⟨rfl, by decide⟩

/-- C1 (amended): on every *successful* return, `calculate_mass` restores
the composition's original `H+` value — when the original count was
nonzero the final dict is the original one, and when it was exactly zero
the `H+` key is removed entirely; in particular `c.get('H+')` is unchanged
after a successful `c.mass()`.  (On error paths raised during mass
accumulation the temporary `H+` assignment is not undone.) -/
theorem calculate_mass_ok_restores_Hplus (c : Dict) (average : Bool)
    (charge? : Option Int) (md : MassData)
    (hc : NodupKeys c) (hok : isOkB (calculate_mass c average charge? md).1 = true) :
    getitem (calculate_mass c average charge? md).2 "H+" = getitem c "H+" ∧
    (getitem c "H+" ≠ 0 → (calculate_mass c average charge? md).2 = c) ∧
    (getitem c "H+" = 0 → (calculate_mass c average charge? md).2 = dictDel c "H+") := by
  obtain ⟨m, d', heq⟩ := isOkB_elim hok
  rw [heq]
  obtain ⟨-, hset, hdel⟩ :=
    calcCore_ok c average (resolvedCharge c charge?) md m d'
      (calculate_mass_ok_calcCore c average charge? md m d' heq)
  have hifne : getitem c "H+" ≠ 0 → d' = c := by
    intro hold
    rw [hset hold, dictSet_dictSet,
        dictSet_getitem_self c "H+" (dictGet?_eq_some_of_getitem_ne_zero c "H+" hold)]
  have hifz : getitem c "H+" = 0 → d' = dictDel c "H+" := by
    intro hold
    rw [hdel hold, dictDel_dictSet]
  refine ⟨?_, hifne, hifz⟩
  by_cases hold : getitem c "H+" = 0
  · rw [hifz hold, hold]
    unfold getitem
    rw [dictGet?_dictDel_self c "H+" hc]
    rfl
  · rw [hifne hold]

/-- C1 witness: for `c = {H+: 2}`, `c.mass()` with no explicit charge
succeeds and leaves the composition unchanged — `c.get('H+')` is still 2. -/
theorem calculate_mass_ok_restores_Hplus_witness :
    NodupKeys dProtonated ∧
    isOkB (calculate_mass dProtonated false none mdTest).1 = true ∧
    (getitem (calculate_mass dProtonated false none mdTest).2 "H+" = getitem dProtonated "H+" ∧
     (getitem dProtonated "H+" ≠ 0 →
        (calculate_mass dProtonated false none mdTest).2 = dProtonated) ∧
     (getitem dProtonated "H+" = 0 →
        (calculate_mass dProtonated false none mdTest).2 = dictDel dProtonated "H+")) :=
  ⟨by decide, rfl,
   calculate_mass_ok_restores_Hplus dProtonated false none mdTest (by decide) rfl⟩

/-- C2, counterexample: `__eq__` iterates only over the operand with more
stored entries, so `{Y: 0} == {W: 5}` (equal sizes, iterate the left)
returns `True` even though the nonzero (key, value) sets `{}` and
`{(W, 5)}` differ. -/
theorem composition_eq_true_with_differing_nonzero_pairs :
    ccompEq [("Y", 0)] [("W", 5)] = true ∧
    nonzeroPairs [("Y", 0)] ≠ nonzeroPairs [("W", 5)] := by
  decide

/-- C2 (amended): when neither operand stores a zero-valued entry,
`__eq__` returns `True` exactly when the two compositions agree on the
count of every key (absent keys reading 0) — equivalently, when their sets
of nonzero (key, value) pairs are identical.  With stored zero entries the
comparison covers only the larger operand's keys and can wrongly report
equality. -/
theorem composition_eq_iff_of_noZeros (a b : Dict)
    (ha : NodupKeys a) (hb : NodupKeys b) (hza : NoZeros a) (hzb : NoZeros b) :
    ccompEq a b = true ↔ ∀ k, getitem a k = getitem b k := by
  constructor
  · intro hEq
    unfold ccompEq at hEq
    by_cases hlen : b.length > a.length
    · rw [if_pos hlen] at hEq
      have hall : ∀ kv ∈ b, getitem a kv.1 = kv.2 := by
        intro kv hm
        simpa using List.all_eq_true.mp hEq kv hm
      have hle := card_keys_le a b ha hb (keys_mem_of_all_getitem a b hzb hall)
      exact absurd hlen (not_lt.mpr hle)
    · rw [if_neg hlen] at hEq
      push_neg at hlen
      have hall : ∀ kv ∈ a, getitem b kv.1 = kv.2 := by
        intro kv hm
        simpa using List.all_eq_true.mp hEq kv hm
      have hsub := keys_mem_of_all_getitem b a hza hall
      intro k
      by_cases hk : k ∈ keys a
      · obtain ⟨kv, hm, rfl⟩ := List.mem_map.mp hk
        rw [getitem_of_mem a kv hm ha, hall kv hm]
      · have hk' : k ∉ keys b := by
          intro hkb
          have hfs : (keys a).toFinset ⊆ (keys b).toFinset := fun x hx =>
            List.mem_toFinset.mpr (hsub x (List.mem_toFinset.mp hx))
          have hcard : (keys b).toFinset.card ≤ (keys a).toFinset.card := by
            rw [List.toFinset_card_of_nodup ha, List.toFinset_card_of_nodup hb]
            simpa [keys] using hlen
          have heq : (keys a).toFinset = (keys b).toFinset :=
            Finset.eq_of_subset_of_card_le hfs hcard
          have hmem : k ∈ (keys a).toFinset := by
            rw [heq]
            exact List.mem_toFinset.mpr hkb
          exact hk (List.mem_toFinset.mp hmem)
        rw [getitem_eq_zero_of_not_mem_keys a k hk,
            getitem_eq_zero_of_not_mem_keys b k hk']
  · intro hAg
    unfold ccompEq
    by_cases hlen : b.length > a.length
    · rw [if_pos hlen]
      apply List.all_eq_true.mpr
      intro kv hm
      have hv := getitem_of_mem b kv hm hb
      simp [hAg kv.1, hv]
    · rw [if_neg hlen]
      apply List.all_eq_true.mpr
      intro kv hm
      have hv := getitem_of_mem a kv hm ha
      simp [← hAg kv.1, hv]

/-- C2 witness: two zero-free compositions holding water in different
insertion orders compare equal in the amended sense. -/
theorem composition_eq_iff_of_noZeros_witness :
    NodupKeys dWater ∧ NodupKeys dWaterRev ∧ NoZeros dWater ∧ NoZeros dWaterRev ∧
      (ccompEq dWater dWaterRev = true ↔ ∀ k, getitem dWater k = getitem dWaterRev k) :=
  ⟨by decide, by decide, by decide, by decide,
   composition_eq_iff_of_noZeros dWater dWaterRev
     (by decide) (by decide) (by decide) (by decide)⟩

/-- C3: when the resolved charge `z` (explicit argument, else the `H+`
count) is nonzero, a successful `calculate_mass` returns the accumulated
total divided by `abs(z)`, so the sign of the result equals the sign of
the accumulated mass — a negative charge never flips it. -/
theorem calculate_mass_divides_by_abs_charge (c : Dict) (average : Bool)
    (charge? : Option Int) (md : MassData)
    (hz : resolvedCharge c charge? ≠ 0)
    (hok : isOkB (calculate_mass c average charge? md).1 = true) :
    ∃ total,
      massLoop (dictSet c "H+" (resolvedCharge c charge?)) average md
        (keys (dictSet c "H+" (resolvedCharge c charge?))) 0 = .ok total ∧
      (calculate_mass c average charge? md).1 =
        .ok (total / (|resolvedCharge c charge?| : ℚ)) ∧
      (0 ≤ total ↔ 0 ≤ total / (|resolvedCharge c charge?| : ℚ)) := by
  obtain ⟨m, d', heq⟩ := isOkB_elim hok
  obtain ⟨⟨total, hml, hm⟩, -, -⟩ :=
    calcCore_ok c average (resolvedCharge c charge?) md m d'
      (calculate_mass_ok_calcCore c average charge? md m d' heq)
  have habs : (0:ℚ) < (|resolvedCharge c charge?| : ℚ) := by
    exact_mod_cast abs_pos.mpr hz
  refine ⟨total, hml, ?_, ?_⟩
  · rw [heq]
    rw [hm, if_pos hz]
  · constructor
    · intro ht
      exact div_nonneg ht habs.le
    · intro hd
      by_contra hneg
      push_neg at hneg
      exact absurd (div_neg_of_neg_of_pos hneg habs) (not_lt.mpr hd)

/-- C3 witness: `{H+: 2}` with no explicit charge resolves to charge 2 and
the returned m/z is the accumulated total divided by `abs(2)`. -/
theorem calculate_mass_divides_by_abs_charge_witness :
    resolvedCharge dProtonated none ≠ 0 ∧
    isOkB (calculate_mass dProtonated false none mdTest).1 = true ∧
    (∃ total,
      massLoop (dictSet dProtonated "H+" (resolvedCharge dProtonated none)) false mdTest
        (keys (dictSet dProtonated "H+" (resolvedCharge dProtonated none))) 0 = .ok total ∧
      (calculate_mass dProtonated false none mdTest).1 =
        .ok (total / (|resolvedCharge dProtonated none| : ℚ)) ∧
      (0 ≤ total ↔ 0 ≤ total / (|resolvedCharge dProtonated none| : ℚ))) :=
  ⟨by decide, rfl,
   calculate_mass_divides_by_abs_charge dProtonated false none mdTest
     (by decide) rfl⟩

/-- C4, counterexample: constructing a Composition with *both* a formula
and a positional mapping does not raise: the formula is parsed and the
mapping is silently ignored (the result is `{O: 1}`, not an error and not
`{H: 1}`). -/
theorem init_formula_and_mapping_does_not_raise :
    CComposition_init (some (.dict [("H", 1)])) (some "O") mdTest [] = .ok [("O", 1)] :=
  rfl

/-- C4 (amended): `__init__` gives the `formula` argument absolute
precedence — whenever a formula is supplied, the positional mapping and
the keyword mapping have no effect on the result, and no
`ChemicalCompositionError` about conflicting sources exists. -/
theorem init_formula_ignores_mapping (args : Option InitArg) (kwargs : Dict)
    (f : String) (md : MassData) :
    CComposition_init args (some f) md kwargs = CComposition_init none (some f) md [] :=
  rfl

/-- C5, counterexample: `__add__` accumulates through the raw `setitem`,
which stores zero counts: `{H: 1} + {H: -1}` leaves the key `H` stored
with count 0, violating the claimed invariant. -/
theorem compAdd_stores_zero_count :
    compAdd [("H", 1)] [("H", -1)] = [("H", 0)] ∧
    ¬ NoZeros (compAdd [("H", 1)] [("H", -1)]) := by
  decide

/-- C5 (amended): item assignment does preserve the sparse invariant —
`c[k] = v` stores `round(v)` when it is nonzero and deletes the key when
`round(v)` is 0, so a composition with no zero counts has none after any
item assignment.  (The arithmetic operators and raw dict construction go
through the low-level `setitem` and can store zeros.) -/
theorem setitemPy_preserves_NoZeros (d : Dict) (k : String) (v : ℚ)
    (h : NoZeros d) : NoZeros (setitemPy d k v) := by
  intro kv hm
  by_cases hz : pyRound v = 0
  · simp only [setitemPy, hz, ne_eq, not_true_eq_false, if_false] at hm
    by_cases hh : hasKey d k = true
    · rw [if_pos hh] at hm
      exact h kv (mem_dictDel d k kv hm)
    · rw [if_neg hh] at hm
      exact h kv hm
  · simp only [setitemPy, ne_eq, hz, not_false_eq_true, if_true] at hm
    rcases mem_dictSet d k (pyRound v) kv hm with hmem | hkv
    · exact h kv hmem
    · rw [hkv]
      exact hz

/-- C5 witness: assigning `0.5` (which rounds to 0) removes the key and
keeps `{H: 2}` free of zero counts. -/
theorem setitemPy_preserves_NoZeros_witness :
    NoZeros dWater ∧ NoZeros (setitemPy dWater "O" (1/2)) :=
  ⟨by decide, setitemPy_preserves_NoZeros dWater "O" (1/2) (by decide)⟩

/-- C6: with a key whose element is absent from the mass table, the
monoisotopic branch of `calculate_mass` dereferences the unchecked `NULL`
result of `PyDict_GetItem` — undefined behavior, not a raised
`ChemicalCompositionError`; the average branch raises a plain Python
`KeyError` instead.  Evaluated at the failing input `{Zz: 1}`. -/
theorem calculate_mass_unknown_element_crashes :
    calculate_mass dUnknown false none mdTest =
      (.error .nullDeref, [("Zz", 1), ("H+", 0)]) ∧
    (calculate_mass dUnknown true none mdTest).1 = .error .keyError :=
  ⟨rfl, rfl⟩

/-- C7: the `_mass_args` cache key is cleared by the `H+` `setitem` that
`calculate_mass` itself performs, so after a first `calc_mass` call the
stored triple is gone (`_mass_args = None`) and an identical second call
with no intervening mutation recomputes instead of serving the cached
value (the served-from-cache flag is `false` both times). -/
theorem calc_mass_cache_never_hits :
    (calc_mass sWater false none mdTest 7).2.2 = false ∧
    (calc_mass sWater false none mdTest 7).2.1.mass_args = none ∧
    (calc_mass (calc_mass sWater false none mdTest 7).2.1 false none mdTest 7).2.2 = false ∧
    isOkB (calc_mass (calc_mass sWater false none mdTest 7).2.1 false none mdTest 7).1 = true :=
  ⟨rfl, rfl, rfl, rfl⟩

/-- C8: parsing the nested formula `"(CH2)6"` recursively parses the
parenthesised group, multiplies by the trailing coefficient 6 and merges,
yielding exactly `{C: 6, H: 12}`. -/
theorem fromFormula_nested_group :
    fromFormula "(CH2)6" mdTest = .ok [("C", 6), ("H", 12)] :=
  rfl

/-- C9, counterexample: on a `CountTable` with one entry `{Fe: 3}` and the
absent key `Cu`, `get("Cu")` returns the `None` default — not the integer
0 — and `pop("Cu")` coerces that `None` default to `long` and raises
`TypeError` instead of returning 0. -/
theorem countTable_get_absent_returns_default :
    ctGet ctFe "Cu" none ≠ some 0 ∧
    ctGet ctFe "Cu" none = none ∧
    (ctPop ctFe "Cu" none).1 = .error () :=
  ⟨by decide, by decide, rfl⟩

/-- C9 (amended): for an absent key, the item read (`t[k]` /
`CountTable.getitem`) returns 0 without raising, `get` returns its
default object (`None` when omitted), and `pop` raises `TypeError`
trying to return the `None` default through its `long` return type;
`pop` of a present key whose value is nonzero returns the previous
value. -/
theorem countTable_get_pop_spec [DecidableEq κ] (t : CountTableT κ) (k : κ) :
    (CtAbsent t k →
       ctGetitem t k = 0 ∧ ctGet t k none = none ∧ (ctPop t k none).1 = .error ()) ∧
    (∀ v : Int, ctGetitem t k = v → v ≠ 0 → (ctPop t k none).1 = .ok v) := by
  constructor
  · intro habs
    have hbin : ∀ bin, t.bins[binIndex t k]? = some bin →
        binFindCell bin k = none := by
      intro bin hget
      exact binFindCell_eq_none bin k
        (habs bin (List.get?_mem (by rw [List.get?_eq_getElem?]; exact hget)))
    have hget0 : ctGetitem t k = 0 := by
      unfold ctGetitem count_table_get
      cases hg : t.bins[binIndex t k]? with
      | none => rfl
      | some bin => simp [hbin bin hg]
    refine ⟨hget0, ?_, ?_⟩
    · simp [ctGet, hget0]
    · unfold ctPop count_table_del
      cases hg : t.bins[binIndex t k]? with
      | none => simp [hg]
      | some bin =>
        have h0 := binDel_fst_of_none bin k (hbin bin hg)
        simp [hg, h0]
  · intro v hv hvne
    cases hg : t.bins[binIndex t k]? with
    | none =>
      have h0 : ctGetitem t k = 0 := by
        unfold ctGetitem count_table_get
        simp [hg]
      rw [hv] at h0
      exact absurd h0 hvne
    | some bin =>
      cases hf : binFindCell bin k with
      | none =>
        have h0 : ctGetitem t k = 0 := by
          unfold ctGetitem count_table_get
          simp [hg, hf]
        rw [hv] at h0
        exact absurd h0 hvne
      | some c =>
        have hveq : c.value = v := by
          have hcv : ctGetitem t k = c.value := by
            unfold ctGetitem count_table_get
            simp [hg, hf]
          rw [hv] at hcv
          exact hcv.symm
        have hdel := binDel_fst_of_some bin k c hf
        simp [ctPop, count_table_del, hg, hdel, hveq, hvne]

/-- C9 witness: on `{Fe: 3}`, `Cu` is absent (item read 0, `get` returns
`None`, `pop` raises `TypeError`) and `pop("Fe")` returns 3. -/
theorem countTable_get_pop_spec_witness :
    CtAbsent ctFe "Cu" ∧
    (ctGetitem ctFe "Cu" = 0 ∧ ctGet ctFe "Cu" none = none ∧
      (ctPop ctFe "Cu" none).1 = .error ()) ∧
    (ctPop ctFe "Fe" none).1 = .ok 3 :=
  ⟨by decide,
   (countTable_get_pop_spec ctFe "Cu").1 (by decide),
   (countTable_get_pop_spec ctFe "Fe").2 3 rfl (by decide)⟩

/-- C10: item assignment stores `round(v)` — for any numeric value `v`,
`c[k] = v` makes the count of `k` read as `round(v)` (round half to even),
and the key is present afterwards exactly when `round(v)` is nonzero, so
a value rounding to 0 (such as 0.4) removes the key instead of storing a
fractional count. -/
theorem setitemPy_rounds (d : Dict) (k : String) (v : ℚ) (hd : NodupKeys d) :
    getitem (setitemPy d k v) k = pyRound v ∧
    (hasKey (setitemPy d k v) k = true ↔ pyRound v ≠ 0) := by
  by_cases hz : pyRound v = 0
  · have hred : setitemPy d k v = if hasKey d k then dictDel d k else d := by
      simp [setitemPy, hz]
    rw [hred, hz]
    by_cases hh : hasKey d k = true
    · rw [if_pos hh]
      constructor
      · unfold getitem
        rw [dictGet?_dictDel_self d k hd]
        rfl
      · simp [hasKey, dictGet?_dictDel_self d k hd]
    · rw [if_neg hh]
      constructor
      · unfold hasKey at hh
        unfold getitem
        cases hgg : dictGet? d k with
        | none => rfl
        | some w => exact absurd (by rw [hgg]; rfl) hh
      · simp [hh]
  · have hred : setitemPy d k v = dictSet d k (pyRound v) := by
      simp [setitemPy, hz]
    rw [hred]
    exact ⟨getitem_dictSet_self d k _, by simp [hasKey_dictSet_self, hz]⟩

/-- C10 witness: assigning `0.4` to the key `C` of `{C: 2}` rounds to 0
and removes the key. -/
theorem setitemPy_rounds_witness :
    NodupKeys [("C", 2)] ∧
    (getitem (setitemPy [("C", 2)] "C" (2/5)) "C" = pyRound (2/5) ∧
      (hasKey (setitemPy [("C", 2)] "C" (2/5)) "C" = true ↔ pyRound (2/5) ≠ 0)) :=
  ⟨by decide, setitemPy_rounds [("C", 2)] "C" (2/5) (by decide)⟩

end Glypy
